import Mathlib

/-!
Verification of the easy-validation schema/validator library.

The development shallowly embeds the library's JavaScript sources:

* `utils.js` (`attachOptions`): the `and(...)` composition operator that
  binds a list of prioritised conditions to a type predicate;
* `types-basic.js`: `baseShim` and the atomic type predicates;
* `conditions.js`: the `required`, `notEmpty`, `inList` and `range`
  conditions;
* `validation.js` (`validateData`): the recursive schema walker;
* `types-complex.js` (`isAnyOfShim`): the union combinator.

JavaScript values are modelled by the inductive type `JSValue` (numbers as
integers, which covers every numeric comparison exercised here); a
validator's JavaScript return value (`true`, an error-message string, or an
array of `{key, error}` records) is modelled by `VResult`, and a thrown
exception by the `Except String` layer.  Asynchronous execution in the
source is strictly sequential awaiting, so the embedding is direct.
-/

namespace EasyValidation

/-- A JavaScript value, as far as the validators inspect one: `undefined`,
`null`, booleans, numbers (modelled as integers: every numeric comparison
performed by the library is faithfully represented on the integer domain),
strings, arrays and plain objects.  An object is its ordered list of
key/value fields (JavaScript key-enumeration order), assumed duplicate-free
as `Object.keys` guarantees. -/
inductive JSValue where
  | undef
  | null
  | bool (b : Bool)
  | num (n : Int)
  | str (s : String)
  | arr (elems : List JSValue)
  | obj (fields : List (String × JSValue))

/-- One `{key, error}` record of the `ValidationError` arrays built by
`validateData`. -/
structure VError where
  key : String
  error : String
deriving DecidableEq, Repr

/-- The value a validator returns (after awaiting): the literal `true`, an
error-message string, or an array of `ValidationError` records. -/
inductive VResult where
  | ok
  | msg (s : String)
  | errs (l : List VError)
deriving DecidableEq, Repr

/-- A validator call either returns a `VResult` or throws (`Error(...)` in
the source, e.g. the wildcard-conflict configuration error). -/
abbrev JSResult := Except String VResult

/-- A validator function `(value, prefixArg) -> true | message | errors`.
The second argument models the path argument the traversal threads through
(`validateData(schemaValue, dataValue, newPrefix)`); validators that ignore
their extra arguments simply drop it. -/
abbrev Validator := JSValue → String → JSResult

/-- `baseShim` from `types-basic.js`: every type predicate passes
`undefined` through as `true` before running its own check. -/
def baseShim (shim : Validator) : Validator := fun value args =>
  match value with
  | .undef => .ok VResult.ok
  | _ => shim value args

/-- `isStringShim` from `types-basic.js`: `typeof value === 'string'`. -/
def isString : Validator :=
  baseShim (fun value _ =>
    .ok (match value with
      | .str _ => VResult.ok
      | _ => VResult.msg "value is not a string"))

/-- `isBooleanShim` from `types-basic.js`: `typeof value === 'boolean'`. -/
def isBoolean : Validator :=
  baseShim (fun value _ =>
    .ok (match value with
      | .bool _ => VResult.ok
      | _ => VResult.msg "value is not a boolean"))

/-- `isObjectShim` from `types-basic.js` (with its `baseShim` wrapper):
`undefined` passes, a plain object (`value && value.constructor ===
{}.constructor`, which rejects `null`, arrays and every primitive) passes,
everything else is `'value is not an object'`.  The source function ignores
its extra arguments and never throws, so it is modelled as a plain
function into `VResult`. -/
def isObject (value : JSValue) : VResult :=
  match value with
  | .undef => VResult.ok
  | .obj _ => VResult.ok
  | _ => VResult.msg "value is not an object"

/-- A condition as accepted by `and(...)`: a validator function carrying the
`priority` number attached in `conditions.js` (`fn.priority = ...`). -/
structure Condition where
  priority : Nat
  run : Validator

/-- `required` from `conditions.js` (priority 3). -/
def required : Condition :=
  ⟨3, fun value _ =>
    .ok (match value with
      | .undef => VResult.msg "value is required but missing"
      | _ => VResult.ok)⟩

/-- `notEmpty` from `conditions.js` (priority 2): fails exactly on the
empty string (`value === ''`). -/
def notEmpty : Condition :=
  ⟨2, fun value _ =>
    .ok (match value with
      | .str "" => VResult.msg "string value can not be empty"
      | _ => VResult.ok)⟩

/-- The message `inList` interpolates: a JavaScript template literal
stringifies the array as its comma-joined elements. -/
def inListMessage (list : List String) : String :=
  "value does not match accepted values: [" ++ String.intercalate "," list ++ "]"

/-- `inList(list)` from `conditions.js` (priority 2):
`list.indexOf(value) >= 0`.  The advertised element type is `string[]`, so
membership by strict equality holds only for a string value that occurs in
the list; any non-string value (in particular `undefined`) is never a
member. -/
def inList (list : List String) : Condition :=
  ⟨2, fun value _ =>
    .ok (match value with
      | .str s => if s ∈ list then VResult.ok else VResult.msg (inListMessage list)
      | _ => VResult.msg (inListMessage list))⟩

/-- JavaScript `ToNumber` view used by the relational operators in `range`
(`value > upper` etc.), restricted to the scalar kinds modelled here;
`none` plays the role of `NaN`, for which every comparison is false.
Strings are mapped to `none`: `range` is documented for numbers and arrays
only, and no claim exercises it on a string. -/
def jsNum : JSValue → Option Int
  | .num n => some n
  | .bool b => some (if b then 1 else 0)
  | .null => some 0
  | _ => none

/-- `a > b` under JavaScript numeric comparison (false when either side is
`NaN`). -/
def jsGt (a b : Option Int) : Bool :=
  match a, b with
  | some x, some y => y < x
  | _, _ => false

/-- `a < b` under JavaScript numeric comparison. -/
def jsLt (a b : Option Int) : Bool :=
  match a, b with
  | some x, some y => x < y
  | _, _ => false

/-- `a >= b && a <= c` under JavaScript numeric comparison. -/
def jsBetween (a b c : Option Int) : Bool :=
  match a, b, c with
  | some x, some y, some z => y ≤ x ∧ x ≤ z
  | _, _, _ => false

/-- `range(lower, upper)` from `conditions.js` (priority 2, the variant
with omittable bounds).  An `Array.isArray` value is measured by its
length; otherwise the value itself is compared.  The `lower === undefined`
branch is tested first, then `upper === undefined`, then the two-sided
interval, exactly as in the source. -/
def range (lower upper : Option Int) : Condition :=
  ⟨2, fun value _ =>
    .ok (match value with
      | .arr elems =>
        match lower with
        | none =>
          if jsGt (some (elems.length : Int)) upper then
            VResult.msg ("array size must be less than or equal to " ++ toString (upper.getD 0))
          else VResult.ok
        | some lo =>
          match upper with
          | none =>
            if jsLt (some (elems.length : Int)) (some lo) then
              VResult.msg ("array size must be greater than or equal to " ++ toString lo)
            else VResult.ok
          | some up =>
            if jsBetween (some (elems.length : Int)) (some lo) (some up) then VResult.ok
            else VResult.msg ("array size falls outside of range (" ++ toString lo ++ ", " ++ toString up ++ ")")
      | v =>
        match lower with
        | none =>
          if jsGt (jsNum v) upper then
            VResult.msg ("value must be less than or equal to " ++ toString (upper.getD 0))
          else VResult.ok
        | some lo =>
          match upper with
          | none =>
            if jsLt (jsNum v) (some lo) then
              VResult.msg ("value must be greater than or equal to " ++ toString lo)
            else VResult.ok
          | some up =>
            if jsBetween (jsNum v) (some lo) (some up) then VResult.ok
            else VResult.msg ("value falls outside of range (" ++ toString lo ++ ", " ++ toString up ++ ")"))⟩

/-!
## The composition operator (`attachOptions` in `utils.js`)

`shim.and(...options)` returns an async `validate` that first awaits the
type predicate, bails on anything other than `true`, then sorts the
(mutable) `options` array in place with the comparator
`(v1, v2) => v1.priority > v2.priority ? -1 : 1` and runs the sorted
conditions until the first non-`true` result.

The comparator never returns `0`; an element compares as "before" another
exactly when its priority is strictly greater.  V8's array sort (binary
insertion for arrays of this size) therefore moves an element ahead of
another only when its priority is strictly greater, i.e. it performs a
stable descending-priority insertion sort, which `insertCond`/`sortOptions`
reproduce: each element is inserted after all previously placed elements of
greater-or-equal priority.
-/

/-- Insert a condition into an already-placed list: it goes immediately
before the first element of strictly smaller priority (hence after every
element of greater-or-equal priority). -/
def insertCond (c : Condition) : List Condition → List Condition
  | [] => [c]
  | d :: ds => if d.priority < c.priority then c :: d :: ds else d :: insertCond c ds

/-- The in-place `options.sort(...)` of `attachOptions`: elements are
processed in supplied order, each inserted after all equal-or-higher
priorities. -/
def sortOptions (options : List Condition) : List Condition :=
  options.foldl (fun acc c => insertCond c acc) []

/-- The condition loop of `attachOptions.validate`: run each condition in
order, stopping at (and returning) the first result that is not `true`;
`true` if the list is exhausted. A thrown condition propagates. -/
def runConditions : List Condition → JSValue → String → JSResult
  | [], _, _ => .ok VResult.ok
  | c :: rest, value, args =>
    match c.run value args with
    | .error e => .error e
    | .ok VResult.ok => runConditions rest value args
    | .ok r => .ok r

/-- One call of the `validate` closure built by `shim.and(...options)`,
including its observable effect on the captured `options` array (the
in-place sort): returns the call's result together with the array's
contents after the call.  The sort only happens once the predicate has
returned `true`, exactly as in the source. -/
def andRun (shim : Validator) (options : List Condition) (value : JSValue)
    (args : String) : JSResult × List Condition :=
  match shim value args with
  | .error e => (.error e, options)
  | .ok VResult.ok =>
    (runConditions (sortOptions options) value args, sortOptions options)
  | .ok r => (.ok r, options)

/-- The composed validator `shim.and(...options)` as a plain validator
(the result component of `andRun` from the initial array contents). -/
def andValidator (shim : Validator) (options : List Condition) : Validator :=
  fun value args => (andRun shim options value args).1

/-- The two-successive-calls experiment on one composed validator: the
first call may reorder the captured `options` array in place; the second
call starts from the mutated array.  Returns both results. -/
def andRunTwice (shim : Validator) (options : List Condition) (value : JSValue)
    (args : String) : JSResult × JSResult :=
  ((andRun shim options value args).1,
   (andRun shim (andRun shim options value args).2 value args).1)

/-!
## The recursive traversal (`validateData` in `validation.js`)
-/

/-- A schema node as `validateData` distinguishes them: a function-valued
leaf (`typeof schema == 'function'`) or a plain mapping from keys to schema
nodes. -/
inductive Schema where
  | fn (v : Validator)
  | map (fields : List (String × Schema))

/-- `typeof schemaValue === 'function'`. -/
def Schema.isFn : Schema → Bool
  | .fn _ => true
  | .map _ => false

/-- `data ? Object.keys(data) : []` for a `data` value that has already
passed the `isObject` check (so it is `undefined`, which is falsy, or a
plain object). -/
def objKeys : JSValue → List String
  | .obj fields => fields.map Prod.fst
  | _ => []

/-- `data ? data[dataKey] : undefined`: property lookup, `undefined` for a
missing key or non-object receiver. -/
def objGet : JSValue → String → JSValue
  | .obj fields, key => (fields.lookup key).getD JSValue.undef
  | _, _ => JSValue.undef

/-- `prefix ? prefix + '.' + key : key` (the empty string is falsy). -/
def joinKey (pre key : String) : String :=
  if pre = "" then key else pre ++ "." ++ key

/-- The trailing loop of `validateData`: one `'extraneous key found'` entry
per leftover data key, in order. -/
def extraneousErrors (pre : String) (keys : List String) : List VError :=
  keys.map (fun k => ⟨joinKey pre k, "extraneous key found"⟩)

/-- `results.length ? results : true`: an empty accumulated error list is
normalized to `true`. -/
def normalizeResult (results : List VError) : VResult :=
  if results.isEmpty then VResult.ok else VResult.errs results

/-- Appending the extraneous-key errors and normalizing — the last two
statements of `validateData`'s mapping branch. -/
def finishKeys (pre : String) (out : List VError × List String) : VResult :=
  normalizeResult (out.1 ++ extraneousErrors pre out.2)

/-- A schema value found by key lookup is structurally smaller than the
field list holding it (justifies the traversal's recursion). -/
theorem sizeOf_lookup_lt {fields : List (String × Schema)} {key : String} {s : Schema}
    (h : fields.lookup key = some s) : sizeOf s < sizeOf fields := by
  induction fields with
  | nil => simp [List.lookup] at h
  | cons p rest ih =>
    match p with
    | (k, v) =>
      simp only [List.lookup] at h
      split at h
      · cases h
        simp only [List.cons.sizeOf_spec, Prod.mk.sizeOf_spec]
        omega
      · have := ih h
        simp only [List.cons.sizeOf_spec]
        omega

mutual

/-- `validateData(schema, data, prefixArg)` from `validation.js`: a
function schema is invoked directly; otherwise the data must pass the
`isObject` check (whose message is returned verbatim when it fails), the
wildcard key `*` replaces the declared keys by one copy per data key after
the sibling-conflict check (which throws), and the per-key loop runs before
leftover data keys are reported as extraneous and the empty error list is
normalized to `true`. -/
def validateData (schema : Schema) (data : JSValue) (pre : String) : JSResult :=
  match schema with
  | .fn v => v data pre
  | .map fields =>
    match isObject data with
    | VResult.ok =>
      let extraneousKeysArr := objKeys data
      let keys := fields.map Prod.fst
      if "*" ∈ keys then
        if 1 < keys.length then
          .error "Schema wildcard conflict. A wildcard can not have sibling keys"
        else
          (processKeys (List.replicate extraneousKeysArr.length "*") fields data pre
            [] extraneousKeysArr).map (finishKeys pre)
      else
        (processKeys keys fields data pre [] extraneousKeysArr).map (finishKeys pre)
    | r => .ok r
termination_by (sizeOf schema, 0)
decreasing_by
  all_goals
    apply Prod.Lex.left
    simp only [Schema.map.sizeOf_spec]
    omega

/-- The `for (var i = 0; i < keys.length; i++)` loop of `validateData`,
threading the accumulated `results` and the mutable `extraneousKeysArr`:
for each schema key (a wildcard key targets the first remaining data key),
the matched data key is spliced out, the sub-schema is looked up (an absent
schema value throws `incorrect schema value for ...`), the walker recurses
when the data value exists or the schema value is a function, and a string
result becomes one `{key, error}` entry while an array result is spread
into the accumulator. -/
def processKeys (keys : List String) (fields : List (String × Schema)) (data : JSValue)
    (pre : String) (results : List VError) (extraneousKeysArr : List String) :
    Except String (List VError × List String) :=
  match keys with
  | [] => .ok (results, extraneousKeysArr)
  | schemaKey :: rest =>
    let dataKey := if schemaKey = "*" then extraneousKeysArr.headI else schemaKey
    let extrRest := extraneousKeysArr.erase dataKey
    let newPrefix := joinKey pre dataKey
    match hsv : fields.lookup schemaKey with
    | none => .error ("incorrect schema value for " ++ newPrefix)
    | some schemaValue =>
      let dataValue := objGet data dataKey
      let recurse : Bool :=
        (match dataValue with | JSValue.undef => false | _ => true) || schemaValue.isFn
      if recurse then
        match validateData schemaValue dataValue newPrefix with
        | .error e => .error e
        | .ok VResult.ok => processKeys rest fields data pre results extrRest
        | .ok (VResult.msg s) =>
          processKeys rest fields data pre (results ++ [⟨newPrefix, s⟩]) extrRest
        | .ok (VResult.errs l) => processKeys rest fields data pre (results ++ l) extrRest
      else
        processKeys rest fields data pre results extrRest
termination_by (sizeOf fields, keys.length + 1)
decreasing_by
  · apply Prod.Lex.left
    exact sizeOf_lookup_lt hsv
  all_goals
    apply Prod.Lex.right
    simp only [List.length_cons]
    omega

end

/-!
## The union combinator (`isAnyOfShim` in `types-complex.js`)
-/

/-- One iteration of `isAnyOfShim`'s loop body: a plain-mapping alternative
(`isObject(types[i]) === true`) is evaluated through `validateData` with
the default empty path, anything else is called directly (the call
`types[i](value)` supplies no path argument, which every validator defaults
to the empty string). -/
def evalAlternative (t : Schema) (value : JSValue) : JSResult :=
  match t with
  | .map fields => validateData (.map fields) value ""
  | .fn f => f value ""

/-- The alternative loop of `isAnyOfShim`: bail with `true` on the first
alternative whose result is `true`; when the list is exhausted, the single
union-failure message. -/
def anyOfLoop : List Schema → JSValue → JSResult
  | [], _ => .ok (VResult.msg "value failed to match one of the the allowed types")
  | t :: rest, value =>
    match evalAlternative t value with
    | .error e => .error e
    | .ok VResult.ok => .ok VResult.ok
    | .ok _ => anyOfLoop rest value

/-- `isAnyOfShim(types)` from `types-complex.js`, including its `baseShim`
wrapper (so `undefined` passes immediately). -/
def isAnyOf (types : List Schema) : Validator :=
  baseShim (fun value _ => anyOfLoop types value)

/-!
## Specification-side predicates

These state the properties claimed of the composition operator, to be
proved of the embedded code above.
-/

/-- The condition list is in descending-priority order. -/
abbrev SortedDescPriority (conds : List Condition) : Prop :=
  conds.Pairwise (fun a b => b.priority ≤ a.priority)

/-- Specification of first-failure sequencing over an ordered condition
list: either some condition fails (returns anything other than `true`, or
throws) while every condition before it returned `true`, and the overall
result is exactly that condition's result; or every condition returns
`true` and the overall result is `true`. -/
def FirstFailureSpec (conds : List Condition) (value : JSValue) (args : String)
    (r : JSResult) : Prop :=
  (∃ l₁ c l₂, conds = l₁ ++ c :: l₂ ∧
      (∀ d ∈ l₁, d.run value args = .ok VResult.ok) ∧
      c.run value args ≠ .ok VResult.ok ∧
      r = c.run value args)
  ∨ ((∀ c ∈ conds, c.run value args = .ok VResult.ok) ∧ r = .ok VResult.ok)

/-!
## Lemmas about the priority sort
-/

theorem insertCond_split (c : Condition) (l : List Condition) :
    ∃ l₁ l₂, l = l₁ ++ l₂ ∧ insertCond c l = l₁ ++ c :: l₂ ∧
      ∀ d ∈ l₁, c.priority ≤ d.priority := by
  induction l with
  | nil => exact ⟨[], [], rfl, rfl, by simp⟩
  | cons d ds ih =>
    by_cases h : d.priority < c.priority
    · exact ⟨[], d :: ds, rfl, by simp [insertCond, h], by simp⟩
    · obtain ⟨l₁, l₂, hsplit, hins, hge⟩ := ih
      refine ⟨d :: l₁, l₂, by simp [hsplit], by simp [insertCond, h, hins], ?_⟩
      intro e he
      rcases List.mem_cons.mp he with rfl | he'
      · omega
      · exact hge e he'

theorem insertCond_perm (c : Condition) (l : List Condition) :
    List.Perm (insertCond c l) (c :: l) := by
  induction l with
  | nil => exact List.Perm.refl _
  | cons d ds ih =>
    by_cases h : d.priority < c.priority
    · simp [insertCond, h]
    · simp only [insertCond, if_neg h]
      exact (ih.cons d).trans (List.Perm.swap c d ds)

theorem sortedDesc_insertCond (c : Condition) (l : List Condition)
    (h : SortedDescPriority l) : SortedDescPriority (insertCond c l) := by
  induction l with
  | nil => simp [insertCond, SortedDescPriority]
  | cons d ds ih =>
    rcases List.pairwise_cons.mp h with ⟨hd, hds⟩
    by_cases hlt : d.priority < c.priority
    · have hins : insertCond c (d :: ds) = c :: d :: ds := by
        simp [insertCond, hlt]
      rw [hins]
      refine List.pairwise_cons.mpr ⟨?_, h⟩
      intro e he
      rcases List.mem_cons.mp he with rfl | he'
      · omega
      · have := hd e he'; omega
    · simp only [insertCond, if_neg hlt]
      refine List.pairwise_cons.mpr ⟨?_, ih hds⟩
      intro e he
      have := (insertCond_perm c ds).mem_iff.mp he
      rcases List.mem_cons.mp this with rfl | he'
      · omega
      · exact hd e he'

theorem sortOptions_sortedDesc_aux (l acc : List Condition)
    (hacc : SortedDescPriority acc) :
    SortedDescPriority (l.foldl (fun a c => insertCond c a) acc) := by
  induction l generalizing acc with
  | nil => simpa using hacc
  | cons c cs ih => exact ih (insertCond c acc) (sortedDesc_insertCond c acc hacc)

theorem sortOptions_sortedDesc (l : List Condition) :
    SortedDescPriority (sortOptions l) :=
  sortOptions_sortedDesc_aux l [] (by simp)

theorem sortOptions_perm_aux (l acc : List Condition) :
    List.Perm (l.foldl (fun a c => insertCond c a) acc) (acc ++ l) := by
  induction l generalizing acc with
  | nil => simp
  | cons c cs ih =>
    have h1 : (c :: cs).foldl (fun a c => insertCond c a) acc
        = cs.foldl (fun a c => insertCond c a) (insertCond c acc) := rfl
    rw [h1]
    refine (ih (insertCond c acc)).trans ?_
    refine (List.Perm.append_right cs (insertCond_perm c acc)).trans ?_
    have : (c :: acc) ++ cs = c :: (acc ++ cs) := rfl
    rw [this]
    exact List.perm_middle.symm

theorem sortOptions_perm (l : List Condition) : List.Perm (sortOptions l) l := by
  simpa using sortOptions_perm_aux l []

theorem filter_insertCond_of_eq (c : Condition) (l : List Condition) (q : Nat)
    (hsort : SortedDescPriority l) (hc : c.priority = q) :
    (insertCond c l).filter (fun d => d.priority == q) =
      l.filter (fun d => d.priority == q) ++ [c] := by
  induction l with
  | nil => simp [insertCond, hc]
  | cons d ds ih =>
    rcases List.pairwise_cons.mp hsort with ⟨hd, hds⟩
    by_cases hlt : d.priority < c.priority
    · -- every element of `d :: ds` has priority below `q`, so the filter is empty
      have hall : ∀ e ∈ d :: ds, e.priority < q := by
        intro e he
        rcases List.mem_cons.mp he with rfl | he'
        · omega
        · have := hd e he'; omega
      have hfil : (d :: ds).filter (fun d => d.priority == q) = [] := by
        refine List.filter_eq_nil_iff.mpr ?_
        intro e he
        have := hall e he
        simp only [beq_iff_eq]
        omega
      have hins : insertCond c (d :: ds) = c :: d :: ds := by
        simp [insertCond, hlt]
      rw [hins, List.filter_cons, hfil]
      simp [hc]
    · simp only [insertCond, if_neg hlt]
      by_cases hdq : d.priority = q
      · simp [List.filter_cons, hdq, ih hds]
      · simp only [List.filter_cons, beq_iff_eq, hdq]
        simp [ih hds, hdq]

theorem filter_insertCond_of_ne (c : Condition) (l : List Condition) (q : Nat)
    (hc : c.priority ≠ q) :
    (insertCond c l).filter (fun d => d.priority == q) =
      l.filter (fun d => d.priority == q) := by
  induction l with
  | nil => simp [insertCond, hc]
  | cons d ds ih =>
    by_cases hlt : d.priority < c.priority
    · simp [insertCond, hlt, hc]
    · simp only [insertCond, if_neg hlt]
      by_cases hdq : d.priority = q
      · simp [List.filter_cons, hdq, ih]
      · simp [List.filter_cons, hdq, ih]

theorem sortOptions_filter_aux (l acc : List Condition) (q : Nat)
    (hacc : SortedDescPriority acc) :
    (l.foldl (fun a c => insertCond c a) acc).filter (fun d => d.priority == q) =
      acc.filter (fun d => d.priority == q) ++ l.filter (fun d => d.priority == q) := by
  induction l generalizing acc with
  | nil => simp
  | cons c cs ih =>
    by_cases hc : c.priority = q
    · calc ((c :: cs).foldl (fun a c => insertCond c a) acc).filter (fun d => d.priority == q)
          = (insertCond c acc).filter (fun d => d.priority == q) ++
              cs.filter (fun d => d.priority == q) :=
            ih (insertCond c acc) (sortedDesc_insertCond c acc hacc)
        _ = (acc.filter (fun d => d.priority == q) ++ [c]) ++
              cs.filter (fun d => d.priority == q) := by
            rw [filter_insertCond_of_eq c acc q hacc hc]
        _ = acc.filter (fun d => d.priority == q) ++
              (c :: cs).filter (fun d => d.priority == q) := by
            simp [List.filter_cons, hc]
    · calc ((c :: cs).foldl (fun a c => insertCond c a) acc).filter (fun d => d.priority == q)
          = (insertCond c acc).filter (fun d => d.priority == q) ++
              cs.filter (fun d => d.priority == q) :=
            ih (insertCond c acc) (sortedDesc_insertCond c acc hacc)
        _ = acc.filter (fun d => d.priority == q) ++
              (c :: cs).filter (fun d => d.priority == q) := by
            rw [filter_insertCond_of_ne c acc q hc]
            simp [List.filter_cons, hc]

theorem sortOptions_filter (l : List Condition) (q : Nat) :
    (sortOptions l).filter (fun d => d.priority == q) =
      l.filter (fun d => d.priority == q) := by
  simpa using
    sortOptions_filter_aux l [] q (by simp [SortedDescPriority])

theorem insertCond_append_of_ge (c : Condition) (l : List Condition)
    (h : ∀ d ∈ l, c.priority ≤ d.priority) : insertCond c l = l ++ [c] := by
  induction l with
  | nil => rfl
  | cons d ds ih =>
    have hd : c.priority ≤ d.priority := h d (by simp)
    have hlt : ¬ d.priority < c.priority := by omega
    simp only [insertCond, if_neg hlt, List.cons_append, List.cons.injEq, true_and]
    exact ih (fun e he => h e (by simp [he]))

theorem foldl_insertCond_of_sorted (l acc : List Condition)
    (h : SortedDescPriority (acc ++ l)) :
    l.foldl (fun a c => insertCond c a) acc = acc ++ l := by
  induction l generalizing acc with
  | nil => simp
  | cons c cs ih =>
    have hc : insertCond c acc = acc ++ [c] := by
      apply insertCond_append_of_ge
      intro d hd
      have := (List.pairwise_append.mp h).2.2 d hd c (by simp)
      exact this
    calc (c :: cs).foldl (fun a c => insertCond c a) acc
        = cs.foldl (fun a c => insertCond c a) (insertCond c acc) := rfl
      _ = cs.foldl (fun a c => insertCond c a) (acc ++ [c]) := by rw [hc]
      _ = (acc ++ [c]) ++ cs := ih (acc ++ [c]) (by simpa using h)
      _ = acc ++ c :: cs := by simp

theorem sortOptions_of_sorted (l : List Condition) (h : SortedDescPriority l) :
    sortOptions l = l := by
  simpa using foldl_insertCond_of_sorted l [] (by simpa using h)

theorem sortOptions_idem (l : List Condition) :
    sortOptions (sortOptions l) = sortOptions l :=
  sortOptions_of_sorted (sortOptions l) (sortOptions_sortedDesc l)

/-!
## Lemmas about condition execution
-/

theorem runConditions_firstFailure (conds : List Condition) (value : JSValue)
    (args : String) :
    FirstFailureSpec conds value args (runConditions conds value args) := by
  induction conds with
  | nil => exact Or.inr ⟨by simp, rfl⟩
  | cons c rest ih =>
    match h : c.run value args with
    | .error e =>
      refine Or.inl ⟨[], c, rest, rfl, by simp, by simp [h], ?_⟩
      simp [runConditions, h]
    | .ok VResult.ok =>
      have hrun : runConditions (c :: rest) value args = runConditions rest value args := by
        simp [runConditions, h]
      rcases ih with ⟨l₁, d, l₂, heq, hall, hne, hr⟩ | ⟨hall, hr⟩
      · refine Or.inl ⟨c :: l₁, d, l₂, by simp [heq], ?_, hne, by rw [hrun]; exact hr⟩
        intro e he
        rcases List.mem_cons.mp he with rfl | he'
        · exact h
        · exact hall e he'
      · refine Or.inr ⟨?_, by rw [hrun]; exact hr⟩
        intro e he
        rcases List.mem_cons.mp he with rfl | he'
        · exact h
        · exact hall e he'
    | .ok (VResult.msg s) =>
      refine Or.inl ⟨[], c, rest, rfl, by simp, by simp [h], ?_⟩
      simp [runConditions, h]
    | .ok (VResult.errs es) =>
      refine Or.inl ⟨[], c, rest, rfl, by simp, by simp [h], ?_⟩
      simp [runConditions, h]

/-!
## Lemmas about the traversal's key loop
-/

theorem foldl_erase_eq_filter (ks : List String) (ds : List String) (hnd : ds.Nodup) :
    ks.foldl (fun e k => e.erase k) ds = ds.filter (fun d => decide (d ∉ ks)) := by
  induction ks generalizing ds with
  | nil => simp
  | cons k ks' ih =>
    rw [List.foldl_cons, ih (ds.erase k) (hnd.erase k),
      List.Nodup.erase_eq_filter hnd k, List.filter_filter]
    congr 1
    funext d
    by_cases hdk : d = k
    · simp [hdk]
    · by_cases hdm : d ∈ ks' <;> simp [hdk, hdm]

/-- On a wildcard-free key list, the loop only appends to the accumulated
results, and ends with exactly the data keys not spliced out by a schema
key. -/
theorem processKeys_spec (keys : List String) (fields : List (String × Schema))
    (data : JSValue) (pre : String) (results : List VError) (extr : List String)
    (out : List VError × List String)
    (hw : "*" ∉ keys)
    (h : processKeys keys fields data pre results extr = .ok out) :
    (∃ newErrs, out.1 = results ++ newErrs) ∧
      out.2 = keys.foldl (fun e k => e.erase k) extr := by
  induction keys generalizing results extr with
  | nil =>
    rw [processKeys] at h
    cases h
    exact ⟨⟨[], by simp⟩, by simp⟩
  | cons schemaKey rest ih =>
    have hne : ¬ schemaKey = "*" := fun hcontra => hw (by simp [hcontra])
    have hrest : "*" ∉ rest := fun hcontra => hw (List.mem_cons_of_mem _ hcontra)
    rw [processKeys] at h
    simp only [if_neg hne] at h
    rw [List.foldl_cons]
    split at h
    · exact absurd h (by simp)
    · split at h
      · split at h
        · exact absurd h (by simp)
        · exact ih _ _ hrest h
        · obtain ⟨⟨n, hn⟩, h2⟩ := ih _ _ hrest h
          exact ⟨⟨_, by rw [hn, List.append_assoc]⟩, h2⟩
        · obtain ⟨⟨n, hn⟩, h2⟩ := ih _ _ hrest h
          exact ⟨⟨_, by rw [hn, List.append_assoc]⟩, h2⟩
      · exact ih _ _ hrest h

/-- A mapping schema applied to data that passes the object check produces
(when it does not throw) exactly the finish step's value on some loop
output. -/
theorem validateData_map_shape (fields : List (String × Schema)) (data : JSValue)
    (pre : String) (r : VResult) (hobj : isObject data = VResult.ok)
    (h : validateData (.map fields) data pre = .ok r) :
    ∃ out, r = finishKeys pre out := by
  rw [validateData, hobj] at h
  by_cases hw : "*" ∈ fields.map Prod.fst
  · rw [if_pos hw] at h
    by_cases hlen : 1 < (fields.map Prod.fst).length
    · rw [if_pos hlen] at h
      exact absurd h (by simp)
    · rw [if_neg hlen] at h
      cases hpk : processKeys (List.replicate (objKeys data).length "*") fields data pre
          [] (objKeys data) with
      | error e => rw [hpk] at h; exact absurd h (by simp [Except.map])
      | ok out =>
        rw [hpk] at h
        simp only [Except.map, Except.ok.injEq] at h
        exact ⟨out, h.symm⟩
  · rw [if_neg hw] at h
    cases hpk : processKeys (fields.map Prod.fst) fields data pre [] (objKeys data) with
    | error e => rw [hpk] at h; exact absurd h (by simp [Except.map])
    | ok out =>
      rw [hpk] at h
      simp only [Except.map, Except.ok.injEq] at h
      exact ⟨out, h.symm⟩

/-- `baseShim` is transparent on anything other than `undefined`. -/
theorem baseShim_ne_undef (f : Validator) (value : JSValue) (args : String)
    (h : value ≠ .undef) : baseShim f value args = f value args := by
  cases value with
  | undef => exact absurd rfl h
  | null => rfl
  | bool b => rfl
  | num n => rfl
  | str s => rfl
  | arr es => rfl
  | obj fs => rfl

/-- The union loop succeeds at the first alternative that evaluates to
`true`, regardless of what follows it. -/
theorem anyOfLoop_success (l₁ : List Schema) (t : Schema) (l₂ : List Schema)
    (value : JSValue)
    (hfail : ∀ t' ∈ l₁, ∃ rr, evalAlternative t' value = .ok rr ∧ rr ≠ VResult.ok)
    (hsucc : evalAlternative t value = .ok VResult.ok) :
    anyOfLoop (l₁ ++ t :: l₂) value = .ok VResult.ok := by
  induction l₁ with
  | nil => simp [anyOfLoop, hsucc]
  | cons t' ts ih =>
    obtain ⟨rr, hrr, hne⟩ := hfail t' (by simp)
    have hrest : anyOfLoop (ts ++ t :: l₂) value = .ok VResult.ok :=
      ih (fun x hx => hfail x (by simp [hx]))
    cases rr with
    | ok => exact absurd rfl hne
    | msg s => simpa [anyOfLoop, hrr] using hrest
    | errs es => simpa [anyOfLoop, hrr] using hrest

/-- The union loop reports the single union-failure message when every
alternative returns a non-`true` value. -/
theorem anyOfLoop_all_fail (types : List Schema) (value : JSValue)
    (hfail : ∀ t ∈ types, ∃ rr, evalAlternative t value = .ok rr ∧ rr ≠ VResult.ok) :
    anyOfLoop types value =
      .ok (VResult.msg "value failed to match one of the the allowed types") := by
  induction types with
  | nil => rfl
  | cons t ts ih =>
    obtain ⟨rr, hrr, hne⟩ := hfail t (by simp)
    have hrest := ih (fun x hx => hfail x (by simp [hx]))
    cases rr with
    | ok => exact absurd rfl hne
    | msg s => simpa [anyOfLoop, hrr] using hrest
    | errs es => simpa [anyOfLoop, hrr] using hrest

/-!
## The claims
-/

/-- Claim C1: a composed validator built with `and(...)` evaluates the type
predicate first; any non-`true` predicate result is returned verbatim with
no condition consulted; on predicate success the conditions run in
descending-priority order (the executed list is a descending-sorted
permutation of the supplied conditions), each condition running only if
all earlier ones returned `true`, the first condition failure
short-circuits the rest and supplies the result, and if everything passes
the composed validator returns `true`. -/
theorem and_composition_contract (shim : Validator) (options : List Condition)
    (value : JSValue) (args : String) :
    (shim value args ≠ .ok VResult.ok →
      andValidator shim options value args = shim value args)
    ∧ (shim value args = .ok VResult.ok →
      SortedDescPriority (sortOptions options) ∧
      List.Perm (sortOptions options) options ∧
      FirstFailureSpec (sortOptions options) value args
        (andValidator shim options value args)) := by
  refine ⟨fun hne => ?_, fun hok => ?_⟩
  · cases h : shim value args with
    | error e => simp [andValidator, andRun, h]
    | ok r =>
      cases r with
      | ok => exact absurd h hne
      | msg s => simp [andValidator, andRun, h]
      | errs l => simp [andValidator, andRun, h]
  · refine ⟨sortOptions_sortedDesc options, sortOptions_perm options, ?_⟩
    have hand : andValidator shim options value args =
        runConditions (sortOptions options) value args := by
      simp [andValidator, andRun, hok]
    rw [hand]
    exact runConditions_firstFailure (sortOptions options) value args

/-- Witness for `and_composition_contract`: a failing predicate is passed
through untouched, and a succeeding predicate hands over to the
first-failure run of the sorted conditions. -/
theorem and_composition_contract_witness :
    andValidator isString [required] (.num 0) "" = isString (.num 0) ""
    ∧ (SortedDescPriority (sortOptions [required]) ∧
       List.Perm (sortOptions [required]) [required] ∧
       FirstFailureSpec (sortOptions [required]) (.str "a") ""
         (andValidator isString [required] (.str "a") "")) :=
  ⟨(and_composition_contract isString [required] (.num 0) "").1
      (by simp [isString, baseShim]),
   (and_composition_contract isString [required] (.str "a") "").2
      (by simp [isString, baseShim])⟩

/-- Claim C2: validating the same input twice yields identical results:
the pure traversal is deterministic, and a composed validator called a
second time (after its captured `options` array has been sorted in place
by the first call) returns the same result as the first call — including
the case of several equal-priority conditions such as
`isString.and(notEmpty, inList(l))` on a failing string. -/
theorem validation_idempotent (schema : Schema) (data : JSValue) (pre : String)
    (shim : Validator) (options : List Condition) (value : JSValue) (args : String)
    (l : List String) :
    validateData schema data pre = validateData schema data pre
    ∧ (andRunTwice shim options value args).2 = (andRunTwice shim options value args).1
    ∧ andRunTwice isString [notEmpty, inList l] (.str "") args =
        (.ok (VResult.msg "string value can not be empty"),
         .ok (VResult.msg "string value can not be empty")) := by
  refine ⟨rfl, ?_, ?_⟩
  · cases h : shim value args with
    | error e => simp [andRunTwice, andRun, h]
    | ok r =>
      cases r with
      | ok => simp [andRunTwice, andRun, h, sortOptions_idem]
      | msg s => simp [andRunTwice, andRun, h]
      | errs le => simp [andRunTwice, andRun, h]
  · simp [andRunTwice, andRun, isString, baseShim, sortOptions, insertCond,
      runConditions, notEmpty, inList]

/-- Claim C3: the priority sort is stable on ties — for every priority
value, the equal-priority conditions appear in the sorted list in exactly
their supplied order; in particular `isString.and(notEmpty, inList(l))`
keeps `notEmpty` (supplied first, same priority 2 as `inList`) first, so a
string failing both conditions gets `notEmpty`'s message. -/
theorem and_tie_stability (options : List Condition) (q : Nat) (l : List String)
    (args : String) (hne : "" ∉ l) :
    (sortOptions options).filter (fun c => c.priority == q) =
      options.filter (fun c => c.priority == q)
    ∧ sortOptions [notEmpty, inList l] = [notEmpty, inList l]
    ∧ andValidator isString [notEmpty, inList l] (.str "") args =
        .ok (VResult.msg "string value can not be empty") := by
  refine ⟨sortOptions_filter options q, ?_, ?_⟩
  · simp [sortOptions, insertCond, notEmpty, inList]
  · simp [andValidator, andRun, isString, baseShim, sortOptions, insertCond,
      runConditions, notEmpty, inList]

/-- Witness for `and_tie_stability` at a concrete list. -/
theorem and_tie_stability_witness :
    "" ∉ ["one", "two"]
    ∧ ((sortOptions [required, notEmpty]).filter (fun c => c.priority == 2) =
        [required, notEmpty].filter (fun c => c.priority == 2)
      ∧ sortOptions [notEmpty, inList ["one", "two"]] = [notEmpty, inList ["one", "two"]]
      ∧ andValidator isString [notEmpty, inList ["one", "two"]] (.str "") "" =
          .ok (VResult.msg "string value can not be empty")) :=
  ⟨by decide, and_tie_stability [required, notEmpty] 2 ["one", "two"] "" (by decide)⟩

/-- Claim C4, counterexample: `validateData` on a function schema returns
the validator's own result, here the bare message string
`'value is not a string'` — neither the literal `true` nor a list of
`{key, error}` entries, refuting "never any other kind of value" for
arbitrary schema/data. -/
theorem validation_result_shape_cex :
    validateData (.fn isString) (.num 5) "" = .ok (VResult.msg "value is not a string")
    ∧ VResult.msg "value is not a string" ≠ VResult.ok
    ∧ ∀ l : List VError, VResult.msg "value is not a string" ≠ VResult.errs l := by
  refine ⟨?_, by simp, by simp⟩
  simp [validateData, isString, baseShim]

/-- Claim C4 as amended: whenever the schema node is a mapping and the
data passes the object check, a non-throwing `validateData` call returns
either the literal `true` or a non-empty list of `{key, error}` entries —
never an empty list (an empty accumulated list is normalized to `true`);
a bare message string can only arise from a function schema or from
non-object data. -/
theorem validation_result_shape (fields : List (String × Schema)) (data : JSValue)
    (pre : String) (r : VResult) (hobj : isObject data = VResult.ok)
    (h : validateData (.map fields) data pre = .ok r) :
    r = VResult.ok ∨ ∃ l, r = VResult.errs l ∧ l ≠ [] := by
  obtain ⟨out, hout⟩ := validateData_map_shape fields data pre r hobj h
  rw [hout]
  unfold finishKeys normalizeResult
  by_cases hemp : (out.1 ++ extraneousErrors pre out.2).isEmpty
  · rw [if_pos hemp]
    exact Or.inl rfl
  · rw [if_neg hemp]
    exact Or.inr ⟨_, rfl, by simpa [List.isEmpty_iff] using hemp⟩

/-- Witness for `validation_result_shape` at a concrete schema and data. -/
theorem validation_result_shape_witness :
    VResult.ok = VResult.ok ∨ ∃ l, VResult.ok = VResult.errs l ∧ l ≠ [] :=
  validation_result_shape [("a", .fn isString)] (.obj [("a", .str "x")]) "" VResult.ok
    rfl
    (by simp [validateData, processKeys, isObject, objKeys, objGet, joinKey,
      finishKeys, normalizeResult, extraneousErrors, isString, baseShim,
      Schema.isFn, List.lookup, Except.map])

/-- Claim C5: a schema mapping declaring the wildcard `*` together with at
least one sibling key makes `validateData` (reaching that mapping with
object data) throw immediately with the exact configuration message, so
the conflict never surfaces as an entry of a returned error list. -/
theorem wildcard_sibling_conflict (fields : List (String × Schema))
    (dataFields : List (String × JSValue)) (pre : String)
    (hw : "*" ∈ fields.map Prod.fst) (hlen : 1 < fields.length) :
    validateData (.map fields) (.obj dataFields) pre =
      .error "Schema wildcard conflict. A wildcard can not have sibling keys"
    ∧ ∀ r, validateData (.map fields) (.obj dataFields) pre ≠ .ok r := by
  have hmain : validateData (.map fields) (.obj dataFields) pre =
      .error "Schema wildcard conflict. A wildcard can not have sibling keys" := by
    rw [validateData]
    have hobj : isObject (.obj dataFields) = VResult.ok := rfl
    rw [hobj, if_pos hw, if_pos (by simpa using hlen)]
  exact ⟨hmain, fun r => by rw [hmain]; simp⟩

/-- Witness for `wildcard_sibling_conflict` at a concrete schema. -/
theorem wildcard_sibling_conflict_witness :
    validateData (.map [("*", .fn isString), ("a", .fn isString)]) (.obj []) "" =
      .error "Schema wildcard conflict. A wildcard can not have sibling keys"
    ∧ ∀ r, validateData (.map [("*", .fn isString), ("a", .fn isString)]) (.obj []) "" ≠
        .ok r :=
  wildcard_sibling_conflict [("*", .fn isString), ("a", .fn isString)] [] ""
    (by simp) (by simp)

/-- Claim C6: for a wildcard-free mapping applied to an object, every data
key not matched by a declared schema key yields exactly one
`'extraneous key found'` entry at the prefixed key, and these entries are
appended after all errors of the declared keys, in the data object's key
enumeration order. -/
theorem extraneous_key_errors (fields : List (String × Schema))
    (dataFields : List (String × JSValue)) (pre : String) (r : VResult)
    (hw : "*" ∉ fields.map Prod.fst)
    (hnd : (dataFields.map Prod.fst).Nodup)
    (h : validateData (.map fields) (.obj dataFields) pre = .ok r) :
    ∃ declared : List VError,
      r = normalizeResult (declared ++ extraneousErrors pre
        ((dataFields.map Prod.fst).filter
          (fun k => decide (k ∉ fields.map Prod.fst)))) := by
  rw [validateData] at h
  have hobj : isObject (.obj dataFields) = VResult.ok := rfl
  rw [hobj, if_neg hw] at h
  have hkeys : objKeys (.obj dataFields) = dataFields.map Prod.fst := rfl
  rw [hkeys] at h
  cases hpk : processKeys (fields.map Prod.fst) fields (.obj dataFields) pre []
      (dataFields.map Prod.fst) with
  | error e => rw [hpk] at h; exact absurd h (by simp [Except.map])
  | ok out =>
    rw [hpk] at h
    simp only [Except.map, Except.ok.injEq] at h
    obtain ⟨⟨declared, hdecl⟩, hextr⟩ :=
      processKeys_spec (fields.map Prod.fst) fields (.obj dataFields) pre []
        (dataFields.map Prod.fst) out hw hpk
    refine ⟨declared, ?_⟩
    rw [← h]
    unfold finishKeys
    rw [hdecl, hextr, foldl_erase_eq_filter _ _ hnd]
    simp

/-- Witness for `extraneous_key_errors` at a concrete schema and data. -/
theorem extraneous_key_errors_witness :
    ∃ declared : List VError,
      VResult.errs [⟨"b", "extraneous key found"⟩] =
        normalizeResult (declared ++ extraneousErrors ""
          (([("a", JSValue.str "x"), ("b", JSValue.num 1)].map Prod.fst).filter
            (fun k => decide (k ∉ [("a", Schema.fn isString)].map Prod.fst)))) :=
  extraneous_key_errors [("a", .fn isString)] [("a", .str "x"), ("b", .num 1)] ""
    (VResult.errs [⟨"b", "extraneous key found"⟩])
    (by simp) (by simp)
    (by simp [validateData, processKeys, isObject, objKeys, objGet, joinKey,
      finishKeys, normalizeResult, extraneousErrors, isString, baseShim,
      Schema.isFn, List.lookup, Except.map])

/-- Claim C7: the `range(lower, upper)` condition applied to a value of
the kinds its type predicates admit (a number, or an array measured by its
length): an omitted bound is unbounded on that side; with only an upper
bound, exceeding it gives the less-than-or-equal message; with only a
lower bound, falling below it gives the greater-than-or-equal message;
with both bounds, leaving the interval gives the outside-of-range message
(array variants prefixed `array size`); otherwise the condition returns
`true`. -/
theorem range_condition_messages (lo up n : Int) (xs : List JSValue) (args : String) :
    (range none (some up)).run (.num n) args =
      .ok (if up < n then VResult.msg ("value must be less than or equal to " ++ toString up)
        else VResult.ok)
    ∧ (range (some lo) none).run (.num n) args =
      .ok (if n < lo then VResult.msg ("value must be greater than or equal to " ++ toString lo)
        else VResult.ok)
    ∧ (range (some lo) (some up)).run (.num n) args =
      .ok (if lo ≤ n ∧ n ≤ up then VResult.ok
        else VResult.msg ("value falls outside of range (" ++ toString lo ++ ", " ++ toString up ++ ")"))
    ∧ (range none none).run (.num n) args = .ok VResult.ok
    ∧ (range none (some up)).run (.arr xs) args =
      .ok (if up < (xs.length : Int) then
          VResult.msg ("array size must be less than or equal to " ++ toString up)
        else VResult.ok)
    ∧ (range (some lo) none).run (.arr xs) args =
      .ok (if (xs.length : Int) < lo then
          VResult.msg ("array size must be greater than or equal to " ++ toString lo)
        else VResult.ok)
    ∧ (range (some lo) (some up)).run (.arr xs) args =
      .ok (if lo ≤ (xs.length : Int) ∧ (xs.length : Int) ≤ up then VResult.ok
        else VResult.msg ("array size falls outside of range (" ++ toString lo ++ ", " ++ toString up ++ ")"))
    ∧ (range none none).run (.arr xs) args = .ok VResult.ok := by
  refine ⟨?_, ?_, ?_, ?_, ?_, ?_, ?_, ?_⟩ <;>
    simp [range, jsGt, jsLt, jsBetween, jsNum]

/-- Claim C8: the union combinator returns `true` immediately on
`undefined`; otherwise it evaluates the alternatives strictly in list
order (a plain mapping through the recursive traversal, anything else by a
direct call — that is the `evalAlternative` dispatch), stops with `true`
at the first alternative that succeeds whatever follows it, and when every
alternative returns a non-`true` value it reports exactly the single
union-failure message with no per-alternative detail. -/
theorem isAnyOf_first_match (types : List Schema) (value : JSValue) (args : String) :
    isAnyOf types .undef args = .ok VResult.ok
    ∧ (∀ l₁ t l₂, types = l₁ ++ t :: l₂ → value ≠ .undef →
        (∀ t' ∈ l₁, ∃ rr, evalAlternative t' value = .ok rr ∧ rr ≠ VResult.ok) →
        evalAlternative t value = .ok VResult.ok →
        isAnyOf types value args = .ok VResult.ok)
    ∧ (value ≠ .undef →
        (∀ t ∈ types, ∃ rr, evalAlternative t value = .ok rr ∧ rr ≠ VResult.ok) →
        isAnyOf types value args =
          .ok (VResult.msg "value failed to match one of the the allowed types")) := by
  refine ⟨rfl, ?_, ?_⟩
  · intro l₁ t l₂ hsplit hundef hfail hsucc
    rw [hsplit]
    unfold isAnyOf
    rw [baseShim_ne_undef _ _ _ hundef]
    exact anyOfLoop_success l₁ t l₂ value hfail hsucc
  · intro hundef hfail
    unfold isAnyOf
    rw [baseShim_ne_undef _ _ _ hundef]
    exact anyOfLoop_all_fail types value hfail

/-- Witness for `isAnyOf_first_match`: with alternatives
`[isString, isBoolean]` and the value `true`, the first alternative fails,
the second succeeds, and the union accepts. -/
theorem isAnyOf_first_match_witness :
    isAnyOf [.fn isString, .fn isBoolean] (.bool true) "" = .ok VResult.ok :=
  (isAnyOf_first_match [.fn isString, .fn isBoolean] (.bool true) "").2.1
    [.fn isString] (.fn isBoolean) [] rfl (by simp)
    (by
      intro t' ht'
      rcases List.mem_singleton.mp ht' with rfl
      exact ⟨VResult.msg "value is not a string", by simp [evalAlternative, isString, baseShim], by simp⟩)
    (by simp [evalAlternative, isBoolean, baseShim])

/-- Claim C9: `isString.and(inList(allowed))` applied to `undefined`
returns the `inList` rejection message: the `baseShim` lets `undefined`
pass the string predicate, and `undefined` is never a member of a string
list, so the membership condition fails even without `required`. -/
theorem inList_rejects_undefined (allowed : List String) (args : String) :
    andValidator isString [inList allowed] .undef args =
      .ok (VResult.msg (inListMessage allowed)) := by
  simp [andValidator, andRun, isString, baseShim, sortOptions, insertCond,
    runConditions, inList]

/-- Claim C10: a wildcard mapping validated against an empty object
returns `true` for every schema node under the wildcard — including one
composed with the `required` condition — since the wildcard loop runs once
per data key and there are none. -/
theorem wildcard_empty_object (N : Schema) (pre : String) :
    validateData (.map [("*", N)]) (.obj []) pre = .ok VResult.ok
    ∧ validateData (.map [("*", .fn (andValidator isString [required]))]) (.obj []) pre =
        .ok VResult.ok := by
  constructor <;>
    simp [validateData, processKeys, isObject, objKeys, finishKeys,
      normalizeResult, extraneousErrors, Except.map]

end EasyValidation
